import Mathlib

/-!
# go-updater: a verification development of `main.go`

The program is a single Go file.  It scrapes the newest Go release name from
`go.dev/dl`, reads the installed release from `/usr/local/go/VERSION`, compares
the two, and when the scraped one is newer downloads, decompresses and unpacks
the release archive.

Modelling conventions.

* A Go `string` is a sequence of bytes: `Str` is `List Nat`, and `str "..."`
  gives the bytes of an ASCII literal.
* `uint64` values are `Nat`; where the Go code relies on wrap-around the
  arithmetic is written with an explicit `% 2 ^ 64`.
* A run-time panic (slice index out of range) is an explicit outcome.
* Calls into the operating system and the network are either modelled on an
  explicit file-system state (`FS`) or, in `main`, taken as outcomes supplied
  by the environment (`Env`); what `main` does is recorded as a trace of
  `Event`s.
-/

set_option maxRecDepth 100000

namespace GoUpdater

/-! ## Go strings -/

/-- A Go string: a finite sequence of bytes. -/
abbrev Str := List Nat

deriving instance DecidableEq for Except

/-- The bytes of an ASCII literal. -/
def str (s : String) : Str := s.toList.map Char.toNat

/-- Go `strings.Index(s, sep)`: the index of the first occurrence of `sep` in
`s`; `none` stands for Go's `-1`. -/
def Index : Str → Str → Option Nat
  | [], sep => if sep.isPrefixOf [] then some 0 else none
  | c :: t, sep =>
    if sep.isPrefixOf (c :: t) then some 0 else (Index t sep).map (· + 1)

/-- Go `strings.Contains(s, substr)`, which is `Index(s, substr) >= 0`. -/
def Contains (s substr : Str) : Bool := (Index s substr).isSome

/-- The loop of Go `strings.genSplit` for a non-empty separator and no limit:
cut at the first occurrence of `sep`, continue behind it.  The first argument
bounds the number of cuts. -/
def splitLoop : Nat → Str → Str → List Str
  | 0, s, _ => [s]
  | fuel + 1, s, sep =>
    match Index s sep with
    | none => [s]
    | some m => s.take m :: splitLoop fuel (s.drop (m + sep.length)) sep

/-- Go `strings.Split(s, sep)`.  With an empty separator Go splits after each
UTF-8 sequence (`explode`); on ASCII input that is one byte per piece. -/
def Split (s sep : Str) : List Str :=
  if sep = [] then s.map (fun c => [c]) else splitLoop s.length s sep

/-- Go `strings.Replace(s, old, new, 1)` for a non-empty `old`: replace the
first occurrence only. -/
def ReplaceFirst (s old new : Str) : Str :=
  match Index s old with
  | none => s
  | some m => s.take m ++ new ++ s.drop (m + old.length)

/-! ## `strconv.ParseUint` (Go standard library) -/

/-- The two errors of `strconv.ParseUint`. -/
inductive NumError where
  | badSyntax
  | outOfRange
  deriving DecidableEq, Repr

/-- Go `strconv.lower`: `c | ('x' - 'X')`. -/
def lower (c : Nat) : Nat := c ||| 0x20

/-- State of the digit loop of `ParseUint`: the accumulator `n` and the flag
`underscores`. -/
structure ScanState where
  n : Nat
  underscores : Bool
  deriving DecidableEq, Repr

/-- The digit loop of `ParseUint` for bit size 64 (so `maxVal = 2^64 - 1`).
`cutoff` is `maxUint64 / base + 1`. -/
def scanDigits (base : Nat) (base0 : Bool) : List Nat → ScanState → Except NumError ScanState
  | [], st => .ok st
  | c :: rest, st =>
    if c = 95 ∧ base0 = true then
      scanDigits base base0 rest { st with underscores := true }
    else
      let d? : Option Nat :=
        if 48 ≤ c ∧ c ≤ 57 then some (c - 48)
        else if 97 ≤ lower c ∧ lower c ≤ 122 then some (lower c - 97 + 10)
        else none
      match d? with
      | none => .error .badSyntax
      | some d =>
        if d ≥ base then .error .badSyntax
        else if st.n ≥ (2 ^ 64 - 1) / base + 1 then .error .outOfRange
        else
          let n := (st.n * base) % 2 ^ 64
          let n1 := (n + d) % 2 ^ 64
          if n1 < n ∨ n1 > 2 ^ 64 - 1 then .error .outOfRange
          else scanDigits base base0 rest { st with n := n1 }

/-- The scan of Go `strconv.underscoreOK` over the number proper; `saw` is the
last kind of byte seen (`94` start, `48` digit or prefix, `95` underscore,
`33` other). -/
def underscoreScan (hex : Bool) : List Nat → Nat → Bool
  | [], saw => saw ≠ 95
  | c :: rest, saw =>
    if (48 ≤ c ∧ c ≤ 57) ∨ (hex = true ∧ 97 ≤ lower c ∧ lower c ≤ 102) then
      underscoreScan hex rest 48
    else if c = 95 then
      if saw ≠ 48 then false else underscoreScan hex rest 95
    else if saw = 95 then false
    else underscoreScan hex rest 33

/-- Go `strconv.underscoreOK`. -/
def underscoreOK (s0 : Str) : Bool :=
  let s := match s0 with
    | c :: t => if c = 45 ∨ c = 43 then t else s0
    | [] => s0
  match s with
  | 48 :: p :: t =>
    if lower p = 98 ∨ lower p = 111 ∨ lower p = 120 then
      underscoreScan (lower p = 120) t 48
    else underscoreScan false s 94
  | _ => underscoreScan false s 94

/-- Go `strconv.ParseUint(s, 0, 64)`: base taken from the prefix (`0x`, `0b`,
`0o`, a leading `0` for octal, otherwise decimal), underscores allowed as in Go
literals.  `.ok n` stands for `(n, nil)`. -/
def ParseUint0 (s : Str) : Except NumError Nat :=
  match s with
  | [] => .error .badSyntax
  | c0 :: t =>
    let (base, digits) : Nat × Str :=
      if c0 = 48 then
        match t with
        | p :: q :: r =>
          if lower p = 98 then (2, q :: r)
          else if lower p = 111 then (8, q :: r)
          else if lower p = 120 then (16, q :: r)
          else (8, t)
        | _ => (8, t)
      else (10, s)
    match scanDigits base true digits ⟨0, false⟩ with
    | .error e => .error e
    | .ok st =>
      if st.underscores = true ∧ underscoreOK s = false then .error .badSyntax
      else .ok st.n

/-- The canonical decimal numeral of `n`, without leading zeros: the bytes of
`Nat.repr n`. -/
def decimal (n : Nat) : Str := (Nat.toDigits 10 n).map Char.toNat

/-- The value of a digit string read from the left, starting from `m`. -/
def digitsValue (m : Nat) (ds : Str) : Nat := ds.foldl (fun a c => 10 * a + (c - 48)) m

/-! ## Version comparison -/

/-- Result of a Go call that may panic. -/
inductive Outcome (α : Type) where
  | ok (a : α)
  | panic
  deriving DecidableEq, Repr

/-- Go slice indexing `xs[i]`, which panics when `i` is out of range. -/
def idx {α : Type} (xs : List α) (i : Nat) : Outcome α :=
  match xs.get? i with
  | some a => .ok a
  | none => .panic

/-- The function `isNewerVersion` of `main.go`.  Each slice
access panics when the index is out of range; `&&` evaluates its right operand
only when the left one is true, and in `a[i] > b[i]` the left operand is
indexed first. -/
def isNewerVersion (current target : List Nat) : Outcome Bool :=
  match idx target 0, idx current 0 with
  | .ok t0, .ok c0 =>
    if t0 > c0 then .ok true
    else
      -- second condition: target[0] == current[0] && target[1] > current[1]
      let second : Outcome Bool :=
        if t0 = c0 then
          match idx target 1, idx current 1 with
          | .ok t1, .ok c1 => .ok (decide (t1 > c1))
          | _, _ => .panic
        else .ok false
      match second with
      | .panic => .panic
      | .ok true => .ok true
      | .ok false =>
        -- third condition: target[1] == current[1] && target[2] > current[2]
        match idx target 1, idx current 1 with
        | .ok t1, .ok c1 =>
          if t1 = c1 then
            match idx target 2, idx current 2 with
            | .ok t2, .ok c2 => .ok (decide (t2 > c2))
            | _, _ => .panic
          else .ok false
        | _, _ => .panic
  | _, _ => .panic

/-- The order the specification asks for: `target` is strictly greater than
`current` lexicographically, major first, then minor, then patch. -/
def lexNewer (current target : Nat × Nat × Nat) : Prop :=
  current.1 < target.1 ∨
  (current.1 = target.1 ∧ current.2.1 < target.2.1) ∨
  (current.1 = target.1 ∧ current.2.1 = target.2.1 ∧ current.2.2 < target.2.2)

instance (c t : Nat × Nat × Nat) : Decidable (lexNewer c t) := by
  unfold lexNewer; infer_instance

/-! ## Paths: `path.Join`, `filepath.Join`, `filepath.Clean` (Go standard library, Unix) -/

/-- Go `strings.Join(elems, sep)` for a one-byte separator. -/
def joinWith (sep : Nat) : List Str → Str
  | [] => []
  | [a] => a
  | a :: b :: rest => a ++ sep :: joinWith sep (b :: rest)

/-- The elements of a path: the pieces between `/` bytes (byte 47). -/
def splitSlash (p : Str) : List Str := p.splitOn 47

/-- One step of the element loop of Go `Clean`: an empty element and `.` are
skipped; `..` removes the last element kept so far, is dropped at the root of
a rooted path, and is kept at the front of a relative path; any other element
is appended. -/
def cleanStep (rooted : Bool) (out : List Str) (c : Str) : List Str :=
  if c = [] ∨ c = str "." then out
  else if c = str ".." then
    match out.getLast? with
    | some top => if top = str ".." then out ++ [c] else out.dropLast
    | none => if rooted then out else out ++ [c]
  else out ++ [c]

/-- The elements that `cleanStep` appends when no `..` occurs: all but the
empty ones and `.`. -/
def keptElems : List Str → List Str
  | [] => []
  | c :: t => if c = [] ∨ c = str "." then keptElems t else c :: keptElems t

/-- The elements that Go `Clean` keeps for a path. -/
def cleanElems (path : Str) : List Str :=
  (splitSlash path).foldl (cleanStep (path.head? = some 47)) []

/-- Go `path.Clean` / `filepath.Clean` on Unix. -/
def Clean (path : Str) : Str :=
  if path = [] then str "."
  else if path.head? = some 47 then 47 :: joinWith 47 (cleanElems path)
  else if cleanElems path = [] then str "."
  else joinWith 47 (cleanElems path)

/-- Go `path.Join` / `filepath.Join` on Unix: leading empty elements are
ignored, the rest is joined with `/` and cleaned. -/
def Join (elem : List Str) : Str :=
  match elem.dropWhile (fun e => decide (e = [])) with
  | [] => []
  | rest => Clean (joinWith 47 rest)

/-! ## The version probes -/

/-- The scan loop of `getGoLatestVersion` over the lines
that `bufio.Scanner` yields: the first line containing both markers gives the
version; `strings.Split(...)[1]` panics when that line has no `>`. -/
def scanListing : List Str → Outcome Str
  | [] => .ok []
  | line :: rest =>
    if Contains line (str "span class") && Contains line (str "linux-amd64") then
      match idx (Split line (str ">")) 1 with
      | .panic => .panic
      | .ok version => idx (Split version (str ".linux-amd64.tar.gz")) 0
    else scanListing rest

/-- The function `getGoLatestVersion` of `main.go`.  The
argument is the outcome of `client.Do`: a transport error, or the lines of the
response body.  The result is the pair `(version, err)`; `err` is the variable
assigned by `client.Do`, which is `nil` after the early return. -/
def getGoLatestVersion (listing : Except Str (List Str)) : Outcome (Str × Option Str) :=
  match listing with
  | .error e => .ok ([], some e)
  | .ok lines =>
    match scanListing lines with
    | .panic => .panic
    | .ok version => .ok (version, none)

/-- What the three system calls of `getInstalledVersion` on
`/usr/local/go/VERSION` give. -/
structure VersionFile where
  /-- `os.Stat` returned no error. -/
  statOk : Bool
  /-- `os.Open` returned no error. -/
  openOk : Bool
  /-- `ioutil.ReadFile`: the content, or `none` for an error. -/
  content : Option Str

/-- The function `getInstalledVersion` of `main.go`. -/
def getInstalledVersion (f : VersionFile) : Str × Option Str :=
  if f.statOk = false then ([], some (str "error: go installation not found"))
  else if f.openOk = false then
    ([], some (str "error: couldn't open file /usr/local/go/VERSION"))
  else
    match f.content with
    | none => ([], some (str "error: couldn't read file /usr/local/go/VERSION"))
    | some version => (version, none)

/-! ## The orchestrator `main` -/

/-- What a run does, in order: text written to standard output and calls of
the stage functions with their arguments. -/
inductive Event where
  | print (text : Str)
  | isNewerVersion (current target : List Nat)
  | stat (path : Str)
  | getPackage (version target : Str)
  | unGzip (source target : Str)
  | removeAll (path : Str)
  | unTar (source target : Str)
  deriving DecidableEq, Repr

/-- How a run of `main` ends. -/
inductive Status where
  | returned
  | panicked
  deriving DecidableEq, Repr

/-- A run of `main`. -/
structure Run where
  trace : List Event
  status : Status
  deriving DecidableEq, Repr

/-- The environment of a run: the outcome of every call that leaves the
program.  An error is given by its message, `none` is Go's `nil`. -/
structure Env where
  /-- `client.Do` on `https://go.dev/dl/`: error, or the lines of the body. -/
  listing : Except Str (List Str)
  /-- The system calls on `/usr/local/go/VERSION`. -/
  versionFile : VersionFile
  /-- Whether `os.IsNotExist(err)` holds after `os.Stat(packagePath)`. -/
  notExist : Str → Bool
  /-- The error returned by `getPackage(version, target)`. -/
  getPackage : Str → Str → Option Str
  /-- The error returned by `unGzip(source, target)`. -/
  unGzip : Str → Str → Option Str
  /-- The error returned by `os.RemoveAll(path)`. -/
  removeAll : Str → Option Str
  /-- The error returned by `unTar(source, target)`. -/
  unTar : Str → Str → Option Str

/-- The two conversion loops of `main` (lines 42-57): each component goes
through `strconv.ParseUint(v, 0, 64)`; the first failure returns the
component `v` that is then printed. -/
def parseComponents : List Str → List Nat → Except Str (List Nat)
  | [], acc => .ok acc
  | v :: rest, acc =>
    match ParseUint0 v with
    | .error _ => .error v
    | .ok n => parseComponents rest (acc ++ [n])

/-- What `main` computes from one version string (lines 27 and 38, then the
conversion loop): the part behind the `go` prefix, `strings.Split(s, "go")[1]`,
is split on `.` and each component converted.  The index panics when the
string has no `go`. -/
def versionNumbers (s : Str) : Outcome (Except Str (List Nat)) :=
  match idx (Split s (str "go")) 1 with
  | .panic => .panic
  | .ok v => .ok (parseComponents (Split v (str ".")) [])

/-- The events that change the system: download, decompression, removal and
unpacking. -/
def Event.sideEffect : Event → Bool
  | .getPackage _ _ => true
  | .unGzip _ _ => true
  | .removeAll _ => true
  | .unTar _ _ => true
  | _ => false

/-- `fmt.Println(err)`. -/
def printlnErr (e : Str) : Event := .print (e ++ str "\n")

/-- Lines 65-98 of `main`: download unless staged, decompress, remove, unpack,
report.  `goLatestVer` is the version without the `go` prefix. -/
def install (env : Env) (goLatestVer downloadUrl : Str) (pre : List Event) : Run :=
  let goLatestVer := str "go" ++ goLatestVer
  let packagePath := str "/tmp/" ++ goLatestVer ++ str ".linux-amd64.tar.gz"
  let t1 := pre ++ [.stat packagePath]
  let download : Except (List Event) (List Event) :=
    if env.notExist packagePath then
      let t2 := t1 ++ [.print (str "Downloading " ++ goLatestVer ++ str " from " ++
        downloadUrl ++ str "\n"), .getPackage goLatestVer packagePath]
      match env.getPackage goLatestVer packagePath with
      | some e => .error (t2 ++ [printlnErr e])
      | none => .ok t2
    else .ok t1
  match download with
  | .error t => ⟨t, .returned⟩
  | .ok t2 =>
    let tarFile := ReplaceFirst packagePath (str ".gz") []
    let t3 := t2 ++ [.unGzip packagePath tarFile]
    match env.unGzip packagePath tarFile with
    | some e => ⟨t3 ++ [printlnErr e], .returned⟩
    | none =>
      let goInstallDir := Join [str "/", str "usr", str "local"]
      let t4 := t3 ++ [.removeAll goInstallDir]
      match env.removeAll goInstallDir with
      | some e => ⟨t4 ++ [printlnErr e], .returned⟩
      | none =>
        let t5 := t4 ++ [.unTar tarFile goInstallDir]
        let t6 := match env.unTar tarFile goInstallDir with
          | some e => t5 ++ [printlnErr e]
          | none => t5
        ⟨t6 ++ [.print (str "Success, golang version " ++ goLatestVer ++
          str " installed correctly\n")], .returned⟩

/-- Lines 40-63 of `main`, followed by `install`: convert both versions,
compare, stop when no upgrade is needed. -/
def compareVersions (env : Env) (goLatestVer goCurrentVer downloadUrl : Str)
    (pre : List Event) : Run :=
  match parseComponents (Split goCurrentVer (str ".")) [] with
  | .error v => ⟨pre ++ [.print (str "error: couldn't convert " ++ v ++ str " to int")], .returned⟩
  | .ok current =>
    match parseComponents (Split goLatestVer (str ".")) [] with
    | .error v =>
      ⟨pre ++ [.print (str "error: couldn't convert " ++ v ++ str " to int")], .returned⟩
    | .ok target =>
      let t1 := pre ++ [.isNewerVersion current target]
      match isNewerVersion current target with
      | .panic => ⟨t1, .panicked⟩
      | .ok false => ⟨t1 ++ [.print (str "Upgrade not needed\n")], .returned⟩
      | .ok true => install env goLatestVer downloadUrl t1

/-- The function `main` of `main.go`. -/
def main (env : Env) : Run :=
  match getGoLatestVersion env.listing with
  | .panic => ⟨[], .panicked⟩
  | .ok (_, some _) =>
    ⟨[.print (str "error: couldn't get golang version from https://go.dev/dl/\n")], .returned⟩
  | .ok (goLatestVer, none) =>
    let t1 := [Event.print (str "Latest version found at go.dev/dl: " ++ goLatestVer ++ str "\n")]
    match idx (Split goLatestVer (str "go")) 1 with
    | .panic => ⟨t1, .panicked⟩
    | .ok goLatestVer =>
      let downloadUrl := str "https://go.dev/dl/go" ++ goLatestVer ++ str ".linux-amd64.tar.gz"
      let (goCurrentVer, t2) : Str × List Event :=
        match getInstalledVersion env.versionFile with
        | (_, some _) =>
          (str "go0.0.0",
            t1 ++ [.print (str "Go installation not found on this system. Installing it now...\n")])
        | (goCurrentVer, none) =>
          (goCurrentVer,
            t1 ++ [.print (str "Installed version on this system: " ++ goCurrentVer ++ str "\n")])
      match idx (Split goCurrentVer (str "go")) 1 with
      | .panic => ⟨t2, .panicked⟩
      | .ok goCurrentVer => compareVersions env goLatestVer goCurrentVer downloadUrl t2

/-! ## A file system, `os.MkdirAll`, `os.OpenFile`, `os.RemoveAll`

The file system holds directories and regular files only (no symbolic or hard
links).  A node is addressed by its absolute path, given as the list of its
elements from the root; the root is the empty list and always a directory.
The permission bits recorded in a node are those it was created with: the
bits passed to the creating call without the bits of the process umask.
Calls fail for structural
reasons only (missing parent, file in place of a directory, ...). -/

/-- An absolute path: its elements, root first. -/
abbrev Path := List Str

/-- A node of the file system. -/
inductive Node where
  | dir (perm : Nat)
  | file (perm : Nat) (data : List Nat)
  deriving DecidableEq, Repr

/-- A file-system state. -/
abbrev FS := Path → Option Node

/-- The node at a path; the root is always a directory. -/
def lookup (fs : FS) (p : Path) : Option Node :=
  if p = [] then some (.dir 0o755) else fs p

/-- The state with the node at `p` replaced. -/
def setNode (fs : FS) (p : Path) (n : Node) : FS :=
  fun q => if q = p then some n else fs q

/-- How the kernel resolves a path string against the working directory
`cwd` when there are no links: `.` and empty elements are skipped, `..` goes to
the parent and stays at the root. -/
def resolve (cwd : Path) (p : Str) : Path :=
  (splitSlash p).foldl (cleanStep true) (if p.head? = some 47 then [] else cwd)

/-- The permission bits that the kernel gives a node created with mode `perm`
by a process with the given umask: `perm & ~(umask & 0777)`. -/
def applyUmask (umask perm : Nat) : Nat := perm - (perm &&& (umask &&& 0o777))

/-- The system call `mkdir` (Go `os.Mkdir`): fails when the path exists or its
parent is not a directory; the directory is created with `perm` less the
umask.  The flag tells success. -/
def Mkdir (umask : Nat) (fs : FS) (p : Path) (perm : Nat) : FS × Bool :=
  match lookup fs p with
  | some _ => (fs, false)
  | none =>
    match lookup fs p.dropLast with
    | some (.dir _) => (setNode fs p (.dir (applyUmask umask perm)), true)
    | _ => (fs, false)

/-- Go `os.MkdirAll` on the reversed path (last element first): succeed when the path is a
directory, fail when it is a file, otherwise make the parent, then `Mkdir`;
when `Mkdir` fails the call still succeeds if the path is a directory by
then. -/
def mkdirAllRev (umask perm : Nat) : List Str → FS → FS × Bool
  | [], fs => (fs, true)
  | c :: parent, fs =>
    match lookup fs (c :: parent).reverse with
    | some (.dir _) => (fs, true)
    | some (.file _ _) => (fs, false)
    | none =>
      match mkdirAllRev umask perm parent fs with
      | (fs1, false) => (fs1, false)
      | (fs1, true) =>
        match Mkdir umask fs1 (c :: parent).reverse perm with
        | (fs2, true) => (fs2, true)
        | (fs2, false) =>
          match lookup fs2 (c :: parent).reverse with
          | some (.dir _) => (fs2, true)
          | _ => (fs2, false)

/-- Go `os.MkdirAll(path, perm)` at a resolved path. -/
def MkdirAll (umask : Nat) (fs : FS) (p : Path) (perm : Nat) : FS × Bool :=
  mkdirAllRev umask perm p.reverse fs

/-- Go `os.OpenFile(path, os.O_CREATE|os.O_TRUNC|os.O_WRONLY, perm)` at a
resolved path: a directory cannot be opened for writing; an existing file is
truncated and keeps its permission bits; a missing file is created with `perm`
less the umask when its parent is a directory.  `none` is an error. -/
def OpenFile (umask : Nat) (fs : FS) (p : Path) (perm : Nat) : Option FS :=
  match lookup fs p with
  | some (.dir _) => none
  | some (.file m _) => some (setNode fs p (.file m []))
  | none =>
    match lookup fs p.dropLast with
    | some (.dir _) => some (setNode fs p (.file (applyUmask umask perm) []))
    | _ => none

/-- The effect of `io.Copy(f, r)` on a file just opened with `OpenFile`:
the bytes read are appended to the (empty) file. -/
def copyTo (fs : FS) (p : Path) (bytes : List Nat) : FS :=
  match lookup fs p with
  | some (.file m old) => setNode fs p (.file m (old ++ bytes))
  | _ => fs

/-- Go `os.endsWithDot`. -/
def endsWithDot (path : Str) : Bool :=
  path = str "." || (str "/.").isSuffixOf path

/-- Go `os.RemoveAll(path)`: nothing for the empty path, an error for a path
ending in `.`, otherwise the node and everything below it is removed. -/
def RemoveAll (cwd : Path) (fs : FS) (path : Str) : FS × Option Str :=
  if path = [] then (fs, none)
  else if endsWithDot path then (fs, some (str "RemoveAll " ++ path ++ str ": invalid argument"))
  else (fun q => if (resolve cwd path).isPrefixOf q then none else fs q, none)

/-! ## `unTar` -/

/-- The kind of a tar entry, as far as `unTar` looks at it: `info.IsDir()` or
not. -/
inductive Kind where
  | dir
  | regular
  | other
  deriving DecidableEq, Repr

/-- A tar entry as `tar.Reader` hands it to `unTar`: header name, kind, the
permission bits of `info.Mode()`, and the bytes that reading the entry
yields. -/
structure Entry where
  name : Str
  kind : Kind
  mode : Nat
  data : List Nat
  deriving DecidableEq, Repr

/-- A tar stream as seen through `tar.Reader`: the entries in stream order,
ended by `io.EOF` or, when `readError` is set, by another error. -/
structure TarStream where
  entries : List Entry
  readError : Bool
  deriving DecidableEq, Repr

/-- Where `unTar` puts an entry: `filepath.Join(target, h.Name)`. -/
def entryPath (target : Str) (e : Entry) : Str := Join [target, e.name]

/-- The loop body of `unTar`, entry by entry.  The state
reached is returned also when an error ends the loop. -/
def unpackEntries (umask : Nat) (cwd : Path) (target : Str) :
    List Entry → FS → FS × Option Str
  | [], fs => (fs, none)
  | e :: rest, fs =>
    let path := entryPath target e
    if e.kind = .dir then
      match MkdirAll umask fs (resolve cwd path) e.mode with
      | (fs1, false) => (fs1, some (str "error:  couldn't write file " ++ path))
      | (fs1, true) => unpackEntries umask cwd target rest fs1
    else
      match OpenFile umask fs (resolve cwd path) e.mode with
      | none => (fs, some (str "error: couldn't open file " ++ path))
      | some fs1 =>
        unpackEntries umask cwd target rest (copyTo fs1 (resolve cwd path) e.data)

/-- The function `unTar` of `main.go`.  `archive` is what
`os.Open(source)` and `tar.NewReader` give: `none` when the file cannot be
opened. -/
def unTar (umask : Nat) (cwd : Path) (fs : FS) (archive : Option TarStream)
    (source target : Str) :
    FS × Option Str :=
  match archive with
  | none => (fs, some (str "error: couldn't open file " ++ source))
  | some ar =>
    match unpackEntries umask cwd target ar.entries fs with
    | (fs1, some e) => (fs1, some e)
    | (fs1, none) =>
      if ar.readError then (fs1, some (str "error: couldn't read " ++ source)) else (fs1, none)

/-- A path lies inside a directory; both are cleaned paths.  Either the two
are equal, or the path continues the directory behind a `/`; for the root the
path is rooted, and for `.` the path is relative and does not start with
`..`. -/
def insideDir (dir p : Str) : Bool :=
  p = dir || (dir ++ [47]).isPrefixOf p ||
  (dir = str "/" && p.head? = some 47) ||
  (dir = str "." && p.head? ≠ some 47 && (splitSlash p).head? ≠ some (str ".."))

/-! ## Concrete runs -/

/-- A line of the listing page as served by `go.dev/dl`, naming `file`. -/
def listingLine (file : String) : Str :=
  str "  <span class=\"filename\">" ++ str file ++ str "</span>"

/-- An environment in which every stage succeeds, except that `unTar` returns
`unTarErr`: the listing names `latest`, the version file is as given, and no
archive is staged. -/
def mkEnv (lines : List Str) (versionFile : VersionFile) (unTarErr : Option Str) : Env where
  listing := .ok lines
  versionFile := versionFile
  notExist := fun _ => true
  getPackage := fun _ _ => none
  unGzip := fun _ _ => none
  removeAll := fun _ => none
  unTar := fun _ _ => unTarErr

/-- A trace that consists of output only. -/
def onlyPrints (t : List Event) : Prop := ∀ e ∈ t, ∃ s, e = Event.print s

/-- The listing page names `go1.23.1`. -/
def listing1231 : List Str := [str "<html>", listingLine "go1.23.1.linux-amd64.tar.gz"]

/-- Installed `go1.22.0`, latest `go1.23.1`, every stage succeeds. -/
def upgradeEnv : Env := mkEnv listing1231 ⟨true, true, some (str "go1.22.0")⟩ none

/-- As `upgradeEnv`, but `unTar` fails on the first file of the archive. -/
def unTarFailsEnv : Env :=
  mkEnv listing1231 ⟨true, true, some (str "go1.22.0")⟩
    (some (str "error: couldn't open file /usr/local/go/VERSION"))

/-- A tar stream of files only, without directory entries. -/
def filesOnlyStream : TarStream :=
  ⟨[⟨str "go/VERSION", .regular, 0o644, str "go1.23.1"⟩,
    ⟨str "go/bin/go", .regular, 0o755, [1, 2]⟩], false⟩

/-- Installed and latest version are both `go1.23.1`. -/
def upToDateEnv : Env := mkEnv listing1231 ⟨true, true, some (str "go1.23.1")⟩ none

/-- The version file exists and opens, but reading it fails. -/
def readFailsEnv : Env := mkEnv listing1231 ⟨true, true, none⟩ none

/-- The version file does not exist. -/
def notInstalledEnv : Env := mkEnv listing1231 ⟨false, false, none⟩ none

/-- The listing page has no line with both markers. -/
def noMarkerEnv : Env :=
  mkEnv [str "<html>", str "<span class=\"filename\">go1.23.1.windows-amd64.zip</span>"]
    ⟨true, true, some (str "go1.22.0")⟩ none

/-- A file system with a Go installation in `/usr/local/go` and another
program in `/usr/local/bin`. -/
def usrLocalFS : FS := fun p =>
  if p = [str "etc"] ∨ p = [str "usr"] ∨ p = [str "usr", str "local"] ∨ p = [str "usr", str "local", str "go"]
      ∨ p = [str "usr", str "local", str "bin"] then some (.dir 0o755)
  else if p = [str "usr", str "local", str "go", str "VERSION"] then
    some (.file 0o644 (str "go1.22.0"))
  else if p = [str "usr", str "local", str "bin", str "tool"] then some (.file 0o755 [1, 2, 3])
  else none

/-- A tar stream whose entry name climbs out of the target directory. -/
def escapingStream : TarStream :=
  ⟨[⟨str "../../etc/passwd", .regular, 0o644, [1]⟩], false⟩

/-! ## Lemmas on `Index` and `Split` -/

theorem Index_at_start (sep r : Str) : Index (sep ++ r) sep = some 0 := by
  have h : sep.isPrefixOf (sep ++ r) = true := by
    rw [List.isPrefixOf_iff_prefix]; exact List.prefix_append sep r
  cases hs : sep ++ r with
  | nil => rw [hs] at h; simp [Index, h]
  | cons c t => rw [hs] at h; simp [Index, h]

theorem Index_none_of_head_not_mem (c : Nat) (sep' : Str) :
    ∀ s : Str, c ∉ s → Index s (c :: sep') = none
  | [], _ => by simp [Index, List.isPrefixOf]
  | x :: t, h => by
    have hx : c ≠ x := fun e => h (by simp [e])
    have ht : c ∉ t := fun m => h (List.mem_cons_of_mem _ m)
    simp [Index, List.isPrefixOf, hx, Index_none_of_head_not_mem c sep' t ht]

theorem Index_single (c : Nat) (b : Str) :
    ∀ a : Str, c ∉ a → Index (a ++ c :: b) [c] = some a.length
  | [], _ => by simp [Index, List.isPrefixOf]
  | x :: t, h => by
    have hx : c ≠ x := fun e => h (by simp [e])
    have ht : c ∉ t := fun m => h (List.mem_cons_of_mem _ m)
    simp [Index, List.isPrefixOf, hx, Index_single c b t ht]

theorem splitLoop_joinWith (c : Nat) :
    ∀ (ls : List Str) (fuel : Nat), ls ≠ [] → (∀ l ∈ ls, c ∉ l) → ls.length ≤ fuel + 1 →
      splitLoop fuel (joinWith c ls) [c] = ls
  | [], _, h, _, _ => absurd rfl h
  | [l], fuel, _, hc, _ => by
    have hl : c ∉ l := hc l (by simp)
    cases fuel with
    | zero => simp [splitLoop, joinWith]
    | succ f => simp [splitLoop, joinWith, Index_none_of_head_not_mem c [] l hl]
  | l :: l2 :: rest, fuel, _, hc, hf => by
    have hl : c ∉ l := hc l (by simp)
    cases fuel with
    | zero => simp at hf
    | succ f =>
      have ih := splitLoop_joinWith c (l2 :: rest) f (by simp)
        (fun x hx => hc x (List.mem_cons_of_mem _ hx)) (by simpa using hf)
      simp only [splitLoop, joinWith, Index_single c _ l hl, List.length_singleton]
      rw [List.take_left' rfl]
      have : List.drop (l.length + 1) (l ++ c :: joinWith c (l2 :: rest))
          = joinWith c (l2 :: rest) := by
        rw [show l ++ c :: joinWith c (l2 :: rest) = (l ++ [c]) ++ joinWith c (l2 :: rest) by simp]
        exact List.drop_left' (by simp)
      rw [this, ih]

theorem length_joinWith (c : Nat) :
    ∀ ls : List Str, ls.length ≤ (joinWith c ls).length + 1
  | [] => by simp
  | [l] => by simp
  | l :: l2 :: rest => by
    have := length_joinWith c (l2 :: rest)
    simp only [joinWith, List.length_cons, List.length_append] at this ⊢
    omega

/-- Splitting a string joined with a one-byte separator gives back the pieces
when no piece contains the separator. -/
theorem Split_joinWith (c : Nat) (ls : List Str) (hne : ls ≠ []) (hc : ∀ l ∈ ls, c ∉ l) :
    Split (joinWith c ls) [c] = ls := by
  unfold Split
  simp only [List.cons_ne_nil, if_false, reduceIte]
  exact splitLoop_joinWith c ls _ hne hc (length_joinWith c ls)

/-- Splitting `"go" ++ r` on `"go"` when `r` has no byte `g`. -/
theorem Split_go (r : Str) (h : 103 ∉ r) : Split (str "go" ++ r) (str "go") = [[], r] := by
  have hs : str "go" = [103, 111] := by decide
  rw [hs]
  unfold Split
  simp only [List.cons_ne_nil, if_false, reduceIte, List.length_append, List.length_cons,
    List.length_nil]
  rw [show 0 + 1 + 1 + r.length = (r.length + 1) + 1 by omega]
  have h0 := Index_at_start [103, 111] r
  simp only [List.cons_append, List.nil_append] at h0
  simp [splitLoop, h0, Index_none_of_head_not_mem 103 [111] r h]

/-! ## `ParseUint` reads decimal numerals -/

theorem digitsValue_ge (ds : Str) : ∀ m, m ≤ digitsValue m ds := by
  induction ds with
  | nil => intro m; simp [digitsValue]
  | cons c t ih =>
    intro m
    have := ih (10 * m + (c - 48))
    simp only [digitsValue, List.foldl_cons] at this ⊢
    omega

theorem scanDigits_decimal (ds : Str) :
    ∀ st : ScanState, (∀ c ∈ ds, 48 ≤ c ∧ c ≤ 57) → digitsValue st.n ds < 2 ^ 64 →
      scanDigits 10 true ds st = .ok ⟨digitsValue st.n ds, st.underscores⟩ := by
  induction ds with
  | nil => intro st _ _; simp [scanDigits, digitsValue]
  | cons c t ih =>
    intro st hd hv
    have hc := hd c (by simp)
    have hge := digitsValue_ge t (10 * st.n + (c - 48))
    have hv' : digitsValue (10 * st.n + (c - 48)) t < 2 ^ 64 := by
      simpa [digitsValue] using hv
    have hb : 10 * st.n + (c - 48) < 2 ^ 64 := lt_of_le_of_lt hge hv'
    norm_num at hb
    have h1 : ¬ (c = 95 ∧ true = true) := by omega
    have h2 : ¬ (c - 48 ≥ 10) := by omega
    have h3 : ¬ (st.n ≥ (2 ^ 64 - 1) / 10 + 1) := by norm_num; omega
    have e1 : (st.n * 10) % 2 ^ 64 = st.n * 10 := Nat.mod_eq_of_lt (by norm_num; omega)
    have e2 : (st.n * 10 + (c - 48)) % 2 ^ 64 = st.n * 10 + (c - 48) :=
      Nat.mod_eq_of_lt (by norm_num; omega)
    have h4 : ¬ (st.n * 10 + (c - 48) < st.n * 10 ∨ st.n * 10 + (c - 48) > 2 ^ 64 - 1) := by
      norm_num; omega
    have ih' := ih ⟨st.n * 10 + (c - 48), st.underscores⟩
      (fun x hx => hd x (List.mem_cons_of_mem _ hx))
      (by simpa [digitsValue, Nat.mul_comm] using hv)
    rw [scanDigits, if_neg h1]
    simp only [hc.1, hc.2, and_self, if_true]
    rw [if_neg h2, if_neg h3]
    simp only [e1, e2]
    rw [if_neg h4, ih']
    simp [digitsValue, Nat.mul_comm]

theorem digitChar_toNat (d : Nat) (h : d < 10) : (Nat.digitChar d).toNat = 48 + d := by
  interval_cases d <;> rfl

/-- The digits produced by `Nat.toDigitsCore`, as bytes: all are decimal
digits, their value continues the value of `n`, and the first one is not `0`
unless `n = 0`. -/
theorem toDigitsCore_spec (fuel : Nat) :
    ∀ (n : Nat) (acc : List Char), n < fuel →
      (∀ c ∈ acc.map Char.toNat, 48 ≤ c ∧ c ≤ 57) →
      (∀ c ∈ (Nat.toDigitsCore 10 fuel n acc).map Char.toNat, 48 ≤ c ∧ c ≤ 57) ∧
      digitsValue 0 ((Nat.toDigitsCore 10 fuel n acc).map Char.toNat)
        = digitsValue n (acc.map Char.toNat) ∧
      (n ≠ 0 → ∃ d r, (Nat.toDigitsCore 10 fuel n acc).map Char.toNat = d :: r ∧ d ≠ 48) := by
  induction fuel with
  | zero => intro n acc h; omega
  | succ f ih =>
    intro n acc hn hacc
    have hd := digitChar_toNat (n % 10) (Nat.mod_lt _ (by norm_num))
    have hacc' : ∀ c ∈ (Nat.digitChar (n % 10) :: acc).map Char.toNat, 48 ≤ c ∧ c ≤ 57 := by
      intro c hc
      simp only [List.map_cons, List.mem_cons] at hc
      rcases hc with rfl | hc
      · rw [hd]; omega
      · exact hacc c hc
    rw [Nat.toDigitsCore]
    by_cases h0 : n / 10 = 0
    · simp only [h0, if_true]
      have hlt : n < 10 := by omega
      have hmod : n % 10 = n := Nat.mod_eq_of_lt hlt
      refine ⟨hacc', ?_, ?_⟩
      · rw [hmod] at hd
        simp [digitsValue, hd, hmod]
      · intro hne
        exact ⟨_, _, by simp only [List.map_cons]; rfl, by rw [hd]; omega⟩
    · simp only [h0, if_false]
      obtain ⟨a1, a2, a3⟩ := ih (n / 10) (Nat.digitChar (n % 10) :: acc) (by omega) hacc'
      refine ⟨a1, ?_, fun _ => a3 h0⟩
      rw [a2]
      simp only [digitsValue, List.map_cons, List.foldl_cons, hd]
      congr 1
      omega

theorem decimal_digits (n : Nat) : ∀ c ∈ decimal n, 48 ≤ c ∧ c ≤ 57 :=
  (toDigitsCore_spec (n + 1) n [] (by omega) (by simp)).1

theorem decimal_value (n : Nat) : digitsValue 0 (decimal n) = n := by
  have := (toDigitsCore_spec (n + 1) n [] (by omega) (by simp)).2.1
  simpa [digitsValue, decimal, Nat.toDigits] using this

/-- `strconv.ParseUint(s, 0, 64)` reads the decimal numeral of every number
below `2^64` back to that number. -/
theorem ParseUint0_decimal (n : Nat) (h : n < 2 ^ 64) : ParseUint0 (decimal n) = .ok n := by
  by_cases h0 : n = 0
  · subst h0; decide
  · obtain ⟨d, r, hdr, hd⟩ := (toDigitsCore_spec (n + 1) n [] (by omega) (by simp)).2.2 h0
    have hdec : decimal n = d :: r := hdr
    have hs := scanDigits_decimal (decimal n) ⟨0, false⟩ (decimal_digits n)
      (by rw [decimal_value]; exact h)
    rw [decimal_value] at hs
    rw [hdec] at hs
    simp only [ParseUint0, hdec, hd, if_false, hs]
    simp

/-! ## Parsing version strings -/

theorem parseComponents_decimal (ns : List Nat) :
    ∀ acc : List Nat, (∀ n ∈ ns, n < 2 ^ 64) →
      parseComponents (ns.map decimal) acc = .ok (acc ++ ns) := by
  induction ns with
  | nil => intro acc _; simp [parseComponents]
  | cons n t ih =>
    intro acc h
    have hn := ParseUint0_decimal n (h n (by simp))
    simp only [List.map_cons, parseComponents, hn]
    rw [ih (acc ++ [n]) (fun x hx => h x (List.mem_cons_of_mem _ hx))]
    simp

theorem mem_joinWith (sep : Nat) :
    ∀ (ls : List Str) (c : Nat), c ∈ joinWith sep ls → c = sep ∨ ∃ l ∈ ls, c ∈ l
  | [], c, h => by simp [joinWith] at h
  | [l], c, h => Or.inr ⟨l, by simp, by simpa [joinWith] using h⟩
  | l :: l2 :: rest, c, h => by
    simp only [joinWith, List.mem_append, List.mem_cons] at h
    rcases h with h | h | h
    · exact Or.inr ⟨l, by simp, h⟩
    · exact Or.inl h
    · rcases mem_joinWith sep (l2 :: rest) c h with h | ⟨x, hx, hc⟩
      · exact Or.inl h
      · exact Or.inr ⟨x, List.mem_cons_of_mem _ hx, hc⟩

/-- The version string `go<n1>.<n2>. ... .<nk>` is converted to its `k`
numbers, for every `k ≥ 1`. -/
theorem versionNumbers_dotted (ns : List Nat) (hne : ns ≠ []) (h : ∀ n ∈ ns, n < 2 ^ 64) :
    versionNumbers (str "go" ++ joinWith 46 (ns.map decimal)) = .ok (.ok ns) := by
  have hg : (103 : Nat) ∉ joinWith 46 (ns.map decimal) := by
    intro hm
    rcases mem_joinWith 46 _ _ hm with h1 | ⟨l, hl, hc⟩
    · omega
    · obtain ⟨n, _, rfl⟩ := List.mem_map.1 hl
      have := decimal_digits n 103 hc
      omega
  have hdot : ∀ l ∈ ns.map decimal, (46 : Nat) ∉ l := by
    intro l hl hc
    obtain ⟨n, _, rfl⟩ := List.mem_map.1 hl
    have := decimal_digits n 46 hc
    omega
  have hs : str "." = [46] := by decide
  unfold versionNumbers
  rw [Split_go _ hg]
  simp only [idx, List.get?, hs]
  rw [Split_joinWith 46 _ (by simpa using hne) hdot, parseComponents_decimal ns [] h]
  simp

/-! ## The shape of a run of `main` -/

theorem install_trace (env : Env) (v url : Str) (pre : List Event) :
    ∃ rest, (install env v url pre).trace = pre ++ rest ∧
      ∀ e ∈ rest, ∀ c t, e ≠ Event.isNewerVersion c t := by
  unfold install
  simp only
  split
  · rename_i t hd
    split at hd
    · split at hd
      · cases hd
        exact ⟨_, by simp only [List.append_assoc]; rfl, by simp [printlnErr]⟩
      · cases hd
    · cases hd
  · rename_i t2 hd
    have ht2 : ∃ r2, t2 = pre ++ r2 ∧ ∀ e ∈ r2, ∀ c t, e ≠ Event.isNewerVersion c t := by
      split at hd
      · split at hd
        · cases hd
        · cases hd
          exact ⟨_, by simp only [List.append_assoc]; rfl, by simp⟩
      · cases hd
        exact ⟨_, rfl, by simp⟩
    obtain ⟨r2, rfl, hr2⟩ := ht2
    split
    · exact ⟨_, by simp only [List.append_assoc]; rfl, by
        intro e he; simp only [List.mem_append, List.mem_cons, List.mem_singleton,
          List.not_mem_nil, or_false] at he
        rcases he with he | he | he
        · exact hr2 e he
        · subst he; simp
        · subst he; simp [printlnErr]⟩
    · split
      · exact ⟨_, by simp only [List.append_assoc]; rfl, by
          intro e he; simp only [List.mem_append, List.mem_cons, List.mem_singleton,
            List.not_mem_nil, or_false] at he
          rcases he with he | he | he | he
          · exact hr2 e he
          · subst he; simp
          · subst he; simp
          · subst he; simp [printlnErr]⟩
      · split
        · exact ⟨_, by simp only [List.append_assoc]; rfl, by
            intro e he; simp only [List.mem_append, List.mem_cons, List.mem_singleton,
              List.not_mem_nil, or_false] at he
            rcases he with he | he | he | he | he | he
            · exact hr2 e he
            · subst he; simp
            · subst he; simp
            · subst he; simp
            · subst he; simp [printlnErr]
            · subst he; simp⟩
        · exact ⟨_, by simp only [List.append_assoc]; rfl, by
            intro e he; simp only [List.mem_append, List.mem_cons, List.mem_singleton,
              List.not_mem_nil, or_false] at he
            rcases he with he | he | he | he | he
            · exact hr2 e he
            · subst he; simp
            · subst he; simp
            · subst he; simp
            · subst he; simp⟩

theorem compareVersions_cases (env : Env) (lv cv url : Str) (pre : List Event) :
    (∃ s, compareVersions env lv cv url pre = ⟨pre ++ [.print s], .returned⟩) ∨
    (∃ c t, isNewerVersion c t = .panic ∧
      compareVersions env lv cv url pre = ⟨pre ++ [.isNewerVersion c t], .panicked⟩) ∨
    (∃ c t, isNewerVersion c t = .ok false ∧
      compareVersions env lv cv url pre =
        ⟨pre ++ [.isNewerVersion c t, .print (str "Upgrade not needed\n")], .returned⟩) ∨
    (∃ c t, isNewerVersion c t = .ok true ∧
      compareVersions env lv cv url pre = install env lv url (pre ++ [.isNewerVersion c t])) := by
  unfold compareVersions
  cases parseComponents (Split cv (str ".")) [] with
  | error v => exact Or.inl ⟨_, rfl⟩
  | ok current =>
    cases parseComponents (Split lv (str ".")) [] with
    | error v => exact Or.inl ⟨_, rfl⟩
    | ok target =>
      simp only
      cases h : isNewerVersion current target with
      | panic => exact Or.inr (Or.inl ⟨current, target, h, rfl⟩)
      | ok b =>
        cases b with
        | false => exact Or.inr (Or.inr (Or.inl ⟨current, target, h, by simp⟩))
        | true => exact Or.inr (Or.inr (Or.inr ⟨current, target, h, rfl⟩))

theorem main_cases (env : Env) :
    (onlyPrints (main env).trace) ∨
    (∃ lv cv url pre, onlyPrints pre ∧ main env = compareVersions env lv cv url pre) := by
  unfold main
  cases getGoLatestVersion env.listing with
  | panic => left; intro e he; simp at he
  | ok p =>
    obtain ⟨v, err⟩ := p
    cases err with
    | some e0 => left; intro e he; simp at he; exact ⟨_, he⟩
    | none =>
      simp only
      cases idx (Split v (str "go")) 1 with
      | panic => left; intro e he; simp at he; exact ⟨_, he⟩
      | ok lv =>
        simp only
        cases getInstalledVersion env.versionFile with
        | mk w err2 =>
          cases err2 with
          | some e2 =>
            simp only
            cases idx (Split (str "go0.0.0") (str "go")) 1 with
            | panic => left; intro e he; simp at he; rcases he with he | he <;> exact ⟨_, he⟩
            | ok cv =>
              right
              exact ⟨_, _, _, _,
                by intro e he; simp at he; rcases he with he | he <;> exact ⟨_, he⟩, rfl⟩
          | none =>
            simp only
            cases idx (Split w (str "go")) 1 with
            | panic => left; intro e he; simp at he; rcases he with he | he <;> exact ⟨_, he⟩
            | ok cv =>
              right
              exact ⟨_, _, _, _,
                by intro e he; simp at he; rcases he with he | he <;> exact ⟨_, he⟩, rfl⟩

theorem onlyPrints_not_compare {t : List Event} (h : onlyPrints t) (c x : List Nat) :
    Event.isNewerVersion c x ∉ t := by
  intro hm
  obtain ⟨s, hs⟩ := h _ hm
  cases hs

theorem onlyPrints_no_sideEffect {t : List Event} (h : onlyPrints t) :
    ∀ e ∈ t, e.sideEffect = false := by
  intro e he
  obtain ⟨s, rfl⟩ := h e he
  rfl

/-! ## Claims on the comparison and on `main` -/

/-- For three-element versions `isNewerVersion` is the disjunction of its
three conditions; the third one does not ask for equal majors. -/
theorem isNewerVersion_three (c0 c1 c2 t0 t1 t2 : Nat) :
    isNewerVersion [c0, c1, c2] [t0, t1, t2] =
      .ok (decide (t0 > c0 ∨ (t0 = c0 ∧ t1 > c1) ∨ (t1 = c1 ∧ t2 > c2))) := by
  simp only [isNewerVersion, idx, List.get?]
  by_cases h0 : t0 > c0
  · simp [h0]
  · by_cases h1 : t0 = c0
    · by_cases h2 : t1 > c1
      · simp [h0, h1, h2]
      · by_cases h3 : t1 = c1 <;> simp [h1, h2, h3]
    · by_cases h3 : t1 = c1 <;> simp [h0, h1, h3]

/-- C1: `isNewerVersion` is not the lexicographic order: with current 2.0.0
and target 1.0.1 it returns true although the target is older. -/
theorem isNewerVersion_not_lexicographic :
    isNewerVersion [2, 0, 0] [1, 0, 1] = .ok true ∧ ¬ lexNewer (2, 0, 0) (1, 0, 1) := by
  decide

/-- C2: when `unTar` returns an error, `main` prints the error and then still
prints the success message.  Such an error arises, for instance, when the
archive has no directory entries: after `/usr/local` has been removed the
first file cannot be created. -/
theorem success_printed_after_unTar_error :
    (unTar 0o022 [] (RemoveAll [] usrLocalFS (str "/usr/local")).1 (some filesOnlyStream)
      (str "/tmp/go1.23.1.linux-amd64.tar") (str "/usr/local")).2 =
      some (str "error: couldn't open file /usr/local/go/VERSION") ∧
    (main unTarFailsEnv).trace =
      [.print (str "Latest version found at go.dev/dl: go1.23.1\n"),
       .print (str "Installed version on this system: go1.22.0\n"),
       .isNewerVersion [1, 22, 0] [1, 23, 1],
       .stat (str "/tmp/go1.23.1.linux-amd64.tar.gz"),
       .print (str "Downloading go1.23.1 from https://go.dev/dl/go1.23.1.linux-amd64.tar.gz\n"),
       .getPackage (str "go1.23.1") (str "/tmp/go1.23.1.linux-amd64.tar.gz"),
       .unGzip (str "/tmp/go1.23.1.linux-amd64.tar.gz") (str "/tmp/go1.23.1.linux-amd64.tar"),
       .removeAll (str "/usr/local"),
       .unTar (str "/tmp/go1.23.1.linux-amd64.tar") (str "/usr/local"),
       .print (str "error: couldn't open file /usr/local/go/VERSION\n"),
       .print (str "Success, golang version go1.23.1 installed correctly\n")] := by
  decide

/-- C3: when the comparison of a run returns false, the run returns after
printing "Upgrade not needed" and its trace has no download, decompression,
removal or unpack. -/
theorem no_upgrade_no_side_effects (env : Env) (current target : List Nat)
    (hcmp : Event.isNewerVersion current target ∈ (main env).trace)
    (hres : isNewerVersion current target = .ok false) :
    (main env).status = .returned ∧
    (main env).trace.getLast? = some (.print (str "Upgrade not needed\n")) ∧
    ∀ e ∈ (main env).trace, e.sideEffect = false := by
  rcases main_cases env with h | ⟨lv, cv, url, pre, hp, hm⟩
  · exact absurd hcmp (onlyPrints_not_compare h _ _)
  · rw [hm] at hcmp ⊢
    have hpre := onlyPrints_not_compare hp current target
    rcases compareVersions_cases env lv cv url pre with
      ⟨s, h⟩ | ⟨c, t, hr, h⟩ | ⟨c, t, hr, h⟩ | ⟨c, t, hr, h⟩
    · rw [h] at hcmp
      simp [hpre] at hcmp
    · rw [h] at hcmp
      simp only [List.mem_append, hpre, List.mem_singleton, false_or] at hcmp
      cases hcmp
      rw [hres] at hr
      cases hr
    · rw [h]
      refine ⟨rfl, by simp, ?_⟩
      intro e he
      simp only [List.mem_append, List.mem_cons, List.mem_singleton, List.not_mem_nil,
        or_false] at he
      rcases he with he | he | he
      · exact onlyPrints_no_sideEffect hp e he
      · subst he; rfl
      · subst he; rfl
    · obtain ⟨rest, ht, hrest⟩ := install_trace env lv url (pre ++ [.isNewerVersion c t])
      rw [h, ht] at hcmp
      simp only [List.mem_append, hpre, List.mem_singleton, false_or] at hcmp
      rcases hcmp with hc | hc
      · cases hc
        rw [hres] at hr
        cases hr
      · exact absurd rfl (hrest _ hc current target)

/-- C3 at a concrete run: installed and latest version are both `go1.23.1`. -/
theorem no_upgrade_no_side_effects_witness :
    (main upToDateEnv).status = .returned ∧
    (main upToDateEnv).trace.getLast? = some (.print (str "Upgrade not needed\n")) ∧
    ∀ e ∈ (main upToDateEnv).trace, e.sideEffect = false :=
  no_upgrade_no_side_effects upToDateEnv [1, 23, 1] [1, 23, 1] (by decide) (by decide)

/-- C5: for `a`, `b`, `c` below `2^64` the string `go<a>.<b>.<c>`, with the
numbers as canonical decimal numerals, is converted as `main` does it to
exactly `[a, b, c]`. -/
theorem versionNumbers_triple (a b c : Nat) (ha : a < 2 ^ 64) (hb : b < 2 ^ 64)
    (hc : c < 2 ^ 64) :
    versionNumbers (str "go" ++ decimal a ++ str "." ++ decimal b ++ str "." ++ decimal c)
      = .ok (.ok [a, b, c]) := by
  have h := versionNumbers_dotted [a, b, c] (by simp) (by
    intro n hn
    simp only [List.mem_cons, List.mem_singleton, List.not_mem_nil, or_false] at hn
    rcases hn with rfl | rfl | rfl <;> assumption)
  have hs : str "." = [46] := by decide
  simpa [joinWith, hs] using h

/-- C5 at a concrete string: `go1.22.0` yields `[1, 22, 0]`. -/
theorem versionNumbers_triple_witness :
    str "go" ++ decimal 1 ++ str "." ++ decimal 22 ++ str "." ++ decimal 0 = str "go1.22.0" ∧
    versionNumbers (str "go" ++ decimal 1 ++ str "." ++ decimal 22 ++ str "." ++ decimal 0)
      = .ok (.ok [1, 22, 0]) :=
  ⟨by decide, versionNumbers_triple 1 22 0 (by decide) (by decide) (by decide)⟩

/-- C6 (as amended): whenever the installed-version probe returns an error,
whichever of its three errors it is, `main` reports that no installation was
found, takes `go0.0.0` as the installed version and goes on to the comparison
with current `[0, 0, 0]`. -/
theorem probe_error_substitutes_zero (env : Env) (v : Str) (target : List Nat)
    (h1 : getGoLatestVersion env.listing = .ok (v, none))
    (h2 : versionNumbers v = .ok (.ok target))
    (h3 : (getInstalledVersion env.versionFile).2 ≠ none) :
    Event.print (str "Go installation not found on this system. Installing it now...\n")
      ∈ (main env).trace ∧
    Event.isNewerVersion [0, 0, 0] target ∈ (main env).trace := by
  unfold versionNumbers at h2
  unfold main
  rw [h1]
  simp only
  cases hl : idx (Split v (str "go")) 1 with
  | panic => rw [hl] at h2; cases h2
  | ok lv =>
    rw [hl] at h2
    simp only [Outcome.ok.injEq] at h2
    simp only
    cases hi : getInstalledVersion env.versionFile with
    | mk w err =>
      rw [hi] at h3
      cases err with
      | none => exact absurd rfl h3
      | some e =>
        simp only
        have hz : idx (Split (str "go0.0.0") (str "go")) 1 = .ok (str "0.0.0") := by decide
        have hp : parseComponents (Split (str "0.0.0") (str ".")) [] = .ok [0, 0, 0] := by
          decide
        rw [hz]
        simp only
        unfold compareVersions
        rw [hp, h2]
        simp only
        cases isNewerVersion [0, 0, 0] target with
        | panic => simp
        | ok b =>
          cases b with
          | false => simp
          | true =>
            obtain ⟨rest, ht, _⟩ := install_trace env lv
              (str "https://go.dev/dl/go" ++ lv ++ str ".linux-amd64.tar.gz")
              ([Event.print (str "Latest version found at go.dev/dl: " ++ v ++ str "\n")] ++
                [.print (str "Go installation not found on this system. Installing it now...\n")]
                ++ [.isNewerVersion [0, 0, 0] target])
            simp only
            rw [ht]
            simp

/-- C6 (as amended) at a concrete run: the version file does not exist. -/
theorem probe_error_substitutes_zero_witness :
    Event.print (str "Go installation not found on this system. Installing it now...\n")
      ∈ (main notInstalledEnv).trace ∧
    Event.isNewerVersion [0, 0, 0] [1, 23, 1] ∈ (main notInstalledEnv).trace :=
  probe_error_substitutes_zero notInstalledEnv (str "go1.23.1") [1, 23, 1]
    (by decide) (by decide) (by decide)

/-- C6 as stated fails: the version file exists and opens but cannot be
read; the probe returns its read error, and the run does not abort: it
takes `0.0.0` as installed version and installs `go1.23.1`. -/
theorem read_error_is_recovered :
    getInstalledVersion readFailsEnv.versionFile =
      ([], some (str "error: couldn't read file /usr/local/go/VERSION")) ∧
    (main readFailsEnv).trace =
      [.print (str "Latest version found at go.dev/dl: go1.23.1\n"),
       .print (str "Go installation not found on this system. Installing it now...\n"),
       .isNewerVersion [0, 0, 0] [1, 23, 1],
       .stat (str "/tmp/go1.23.1.linux-amd64.tar.gz"),
       .print (str "Downloading go1.23.1 from https://go.dev/dl/go1.23.1.linux-amd64.tar.gz\n"),
       .getPackage (str "go1.23.1") (str "/tmp/go1.23.1.linux-amd64.tar.gz"),
       .unGzip (str "/tmp/go1.23.1.linux-amd64.tar.gz") (str "/tmp/go1.23.1.linux-amd64.tar"),
       .removeAll (str "/usr/local"),
       .unTar (str "/tmp/go1.23.1.linux-amd64.tar") (str "/usr/local"),
       .print (str "Success, golang version go1.23.1 installed correctly\n")] := by
  decide

/-- When no line has both markers, the scan ends with the empty version. -/
theorem scanListing_no_marker (lines : List Str)
    (h : ∀ l ∈ lines, ¬ (Contains l (str "span class") = true ∧
      Contains l (str "linux-amd64") = true)) :
    getGoLatestVersion (.ok lines) = .ok ([], none) := by
  have hs : scanListing lines = .ok [] := by
    induction lines with
    | nil => rfl
    | cons l t ih =>
      have hl := h l (by simp)
      have ht := ih (fun x hx => h x (List.mem_cons_of_mem _ hx))
      simp only [scanListing, Bool.and_eq_true]
      rw [if_neg hl, ht]
  simp [getGoLatestVersion, hs]

/-- C7: for a listing without a line that has both markers,
`getGoLatestVersion` returns the empty version and no error, and `main` then
panics on `strings.Split(goLatestVer, "go")[1]` after printing the empty
version. -/
theorem no_marker_returns_empty_version :
    getGoLatestVersion noMarkerEnv.listing = .ok ([], none) ∧
    main noMarkerEnv =
      ⟨[.print (str "Latest version found at go.dev/dl: \n")], .panicked⟩ := by
  decide

/-- C9: the removal step of an upgrade run is `os.RemoveAll("/usr/local")`;
on a file system with a file `/usr/local/bin/tool`, which is outside
`/usr/local/go`, that call removes the file. -/
theorem removal_deletes_outside_go :
    Event.removeAll (str "/usr/local") ∈ (main upgradeEnv).trace ∧
    lookup usrLocalFS [str "usr", str "local", str "bin", str "tool"]
      = some (.file 0o755 [1, 2, 3]) ∧
    [str "usr", str "local", str "go"].isPrefixOf
      [str "usr", str "local", str "bin", str "tool"] = false ∧
    (RemoveAll [] usrLocalFS (str "/usr/local")).2 = none ∧
    lookup (RemoveAll [] usrLocalFS (str "/usr/local")).1
      [str "usr", str "local", str "bin", str "tool"] = none := by
  decide

/-! ## Paths -/

theorem splitSlash_ne_nil (p : Str) : splitSlash p ≠ [] := List.splitOnP_ne_nil _ _

theorem splitSlash_append (b : Str) :
    ∀ a : Str, splitSlash (a ++ 47 :: b) = splitSlash a ++ splitSlash b := by
  intro a
  induction a with
  | nil => simp [splitSlash, List.splitOn]
  | cons x t ih =>
    simp only [splitSlash, List.splitOn] at ih ⊢
    simp only [List.cons_append, List.splitOnP_cons, ih]
    by_cases hx : (x == 47) = true
    · simp [hx]
    · simp only [hx, if_false, Bool.false_eq_true]
      cases hs : List.splitOnP (fun y => y == 47) t with
      | nil => exact absurd hs (List.splitOnP_ne_nil _ _)
      | cons h r => simp

theorem splitSlash_no_slash (p : Str) : ∀ l ∈ splitSlash p, (47 : Nat) ∉ l := by
  induction p with
  | nil => simp [splitSlash, List.splitOn]
  | cons x t ih =>
    simp only [splitSlash, List.splitOn] at ih ⊢
    rw [List.splitOnP_cons]
    by_cases hx : (x == 47) = true
    · simp only [hx, if_true]
      intro l hl
      rcases List.mem_cons.1 hl with rfl | hl
      · simp
      · exact ih l hl
    · simp only [hx, if_false, Bool.false_eq_true]
      cases hs : List.splitOnP (fun y => y == 47) t with
      | nil => exact absurd hs (List.splitOnP_ne_nil _ _)
      | cons h r =>
        rw [hs] at ih
        intro l hl
        simp only [List.modifyHead_cons, List.mem_cons] at hl
        rcases hl with rfl | hl
        · intro hm
          rcases List.mem_cons.1 hm with e | hm
          · exact hx (by simp [← e])
          · exact ih h (by simp) hm
        · exact ih l (by simp [hl])

theorem splitSlash_single (l : Str) (h : (47 : Nat) ∉ l) : splitSlash l = [l] := by
  simp only [splitSlash, List.splitOn]
  apply List.splitOnP_eq_single
  intro x hx hp
  have : x = 47 := by simpa using hp
  exact h (this ▸ hx)

theorem splitSlash_joinWith :
    ∀ ls : List Str, ls ≠ [] → (∀ l ∈ ls, (47 : Nat) ∉ l) → splitSlash (joinWith 47 ls) = ls
  | [], h, _ => absurd rfl h
  | [l], _, hc => by simpa [joinWith] using splitSlash_single l (hc l (by simp))
  | l :: l2 :: rest, _, hc => by
    have ih := splitSlash_joinWith (l2 :: rest) (by simp)
      (fun x hx => hc x (List.mem_cons_of_mem _ hx))
    simp only [joinWith]
    rw [splitSlash_append, splitSlash_single l (hc l (by simp)), ih]
    rfl

theorem joinWith_append (sep : Nat) (n : List Str) (hn : n ≠ []) :
    ∀ s : List Str, s ≠ [] → joinWith sep (s ++ n) = joinWith sep s ++ sep :: joinWith sep n
  | [], h => absurd rfl h
  | [l], _ => by
    cases n with
    | nil => exact absurd rfl hn
    | cons a r => simp [joinWith]
  | l :: l2 :: rest, _ => by
    have ih := joinWith_append sep n hn (l2 :: rest) (by simp)
    simp only [List.cons_append] at ih ⊢
    simp only [joinWith, ih, List.append_assoc, List.cons_append]

theorem foldl_cleanStep_no_dotdot (rooted : Bool) :
    ∀ (cs out : List Str), str ".." ∉ cs →
      cs.foldl (cleanStep rooted) out = out ++ keptElems cs := by
  intro cs
  induction cs with
  | nil => intro out _; simp [keptElems]
  | cons c t ih =>
    intro out h
    have hc : c ≠ str ".." := fun e => h (by simp [e])
    have ht : str ".." ∉ t := fun m => h (List.mem_cons_of_mem _ m)
    rw [List.foldl_cons, ih _ ht]
    by_cases hk : c = [] ∨ c = str "."
    · simp [cleanStep, keptElems, hk]
    · simp [cleanStep, keptElems, hk, hc]

theorem keptElems_props :
    ∀ (cs : List Str), ∀ c ∈ keptElems cs, c ∈ cs ∧ c ≠ [] ∧ c ≠ str "." := by
  intro cs
  induction cs with
  | nil => intro c hc; simp [keptElems] at hc
  | cons x t ih =>
    intro c hc
    by_cases hk : x = [] ∨ x = str "."
    · simp only [keptElems, hk, if_true] at hc
      have := ih c hc
      exact ⟨List.mem_cons_of_mem _ this.1, this.2⟩
    · simp only [keptElems, hk, if_false, List.mem_cons] at hc
      rcases hc with rfl | hc
      · exact ⟨by simp, fun e => hk (Or.inl e), fun e => hk (Or.inr e)⟩
      · have := ih c hc
        exact ⟨List.mem_cons_of_mem _ this.1, this.2⟩

theorem Join_two (target name : Str) (ht : target ≠ []) :
    Join [target, name] = Clean (target ++ 47 :: name) := by
  simp [Join, List.dropWhile, ht, joinWith]

theorem head?_append_slash (target name : Str) (ht : target ≠ []) :
    (target ++ 47 :: name).head? = target.head? := by
  cases target with
  | nil => exact absurd rfl ht
  | cons a r => rfl

theorem cleanElems_join (target name : Str) (ht : target ≠ [])
    (hn : str ".." ∉ splitSlash name) :
    cleanElems (target ++ 47 :: name) = cleanElems target ++ keptElems (splitSlash name) := by
  unfold cleanElems
  rw [head?_append_slash target name ht, splitSlash_append, List.foldl_append,
    foldl_cleanStep_no_dotdot _ _ _ hn]

/-- C10 (as amended): for every non-empty target directory and every entry
name that has no `..` element, the path `filepath.Join(target, name)` that
`unTar` writes lies inside the cleaned target directory. -/
theorem entryPath_inside_target (target : Str) (e : Entry) (ht : target ≠ [])
    (hn : str ".." ∉ splitSlash e.name) :
    insideDir (Clean target) (entryPath target e) = true := by
  have hP : target ++ 47 :: e.name ≠ [] := by simp
  have hslash : str "/" = [47] := by decide
  have hdot : str "." = [46] := by decide
  rw [entryPath, Join_two target e.name ht]
  unfold Clean
  rw [if_neg ht, if_neg hP, head?_append_slash target e.name ht, cleanElems_join target e.name ht hn]
  generalize hS : cleanElems target = S
  generalize hN : keptElems (splitSlash e.name) = N
  have hNprops : ∀ c ∈ N, (47 : Nat) ∉ c ∧ c ≠ [] ∧ c ≠ str ".." := by
    intro c hc
    rw [← hN] at hc
    have h1 := keptElems_props _ c hc
    exact ⟨splitSlash_no_slash _ c h1.1, h1.2.1, fun e' => hn (e' ▸ h1.1)⟩
  cases N with
  | nil => simp [insideDir]
  | cons n0 nr =>
    have hne : n0 :: nr ≠ [] := by simp
    by_cases hr : target.head? = some 47
    · simp only [hr, if_true]
      cases S with
      | nil =>
        simp [insideDir, joinWith, hslash]
      | cons s0 sr =>
        rw [joinWith_append 47 _ hne (s0 :: sr) (by simp)]
        have : ((47 :: joinWith 47 (s0 :: sr)) ++ [47]).isPrefixOf
            (47 :: (joinWith 47 (s0 :: sr) ++ 47 :: joinWith 47 (n0 :: nr))) = true := by
          rw [List.isPrefixOf_iff_prefix]
          exact ⟨joinWith 47 (n0 :: nr), by simp⟩
        simp [insideDir, this]
    · simp only [hr, if_false]
      cases S with
      | nil =>
        have h0 := hNprops n0 (by simp)
        have hsplit : splitSlash (joinWith 47 (n0 :: nr)) = n0 :: nr :=
          splitSlash_joinWith _ hne (fun l hl => (hNprops l hl).1)
        have hhead : (joinWith 47 (n0 :: nr)).head? ≠ some 47 := by
          obtain ⟨a, r, rfl⟩ : ∃ a r, n0 = a :: r := by
            cases n0 with
            | nil => exact absurd rfl h0.2.1
            | cons a r => exact ⟨a, r, rfl⟩
          have ha : a ≠ 47 := fun e' => h0.1 (by simp [e'])
          cases nr with
          | nil => simpa [joinWith] using ha
          | cons b br => simpa [joinWith] using ha
        have h2 : n0 ≠ str ".." := h0.2.2
        simp [insideDir, hsplit, hhead, h2]
      | cons s0 sr =>
        simp only [List.cons_append, if_false, reduceCtorEq]
        have := joinWith_append 47 _ hne (s0 :: sr) (by simp)
        simp only [List.cons_append] at this
        rw [this]
        have hp : (joinWith 47 (s0 :: sr) ++ [47]).isPrefixOf
            (joinWith 47 (s0 :: sr) ++ 47 :: joinWith 47 (n0 :: nr)) = true := by
          rw [List.isPrefixOf_iff_prefix]
          exact ⟨joinWith 47 (n0 :: nr), by simp⟩
        simp [insideDir, hp]

/-- C10 (as amended) at a concrete entry: the name `go/bin/./gofmt` under
`/usr/local`. -/
theorem entryPath_inside_target_witness :
    insideDir (Clean (str "/usr/local"))
      (entryPath (str "/usr/local") ⟨str "go/bin/./gofmt", .regular, 0o755, [1]⟩) = true :=
  entryPath_inside_target (str "/usr/local") ⟨str "go/bin/./gofmt", .regular, 0o755, [1]⟩
    (by decide) (by decide)

/-- C10 as stated fails: with target `/usr/local` the entry name
`../../etc/passwd` gives the path `/etc/passwd`, outside the target, and
`unTar` creates that file. -/
theorem entryPath_escapes_target :
    entryPath (str "/usr/local") ⟨str "../../etc/passwd", .regular, 0o644, [1]⟩
      = str "/etc/passwd" ∧
    insideDir (Clean (str "/usr/local"))
      (entryPath (str "/usr/local") ⟨str "../../etc/passwd", .regular, 0o644, [1]⟩) = false ∧
    lookup usrLocalFS [str "etc", str "passwd"] = none ∧
    (unTar 0o022 [] usrLocalFS (some escapingStream) (str "/tmp/go.tar") (str "/usr/local")).2
      = none ∧
    lookup (unTar 0o022 [] usrLocalFS (some escapingStream) (str "/tmp/go.tar") (str "/usr/local")).1
      [str "etc", str "passwd"] = some (.file 0o644 [1]) := by
  decide

/-! ## The file system and `unTar` -/

end GoUpdater
